import Mathlib

/-!
Verification of the autocref text pipeline (lexer, parser, renderer,
bookmark-id allocator), shallowly embedded from the Rust source.

Strings are modelled as `List Char` (the Rust code slices `&str` at byte
offsets, but every offset it uses lies on a character boundary and equals a
character count of the surrounding literals, so the character-level model is
exact).  The `regex` crate's leftmost-first `find_iter` is modelled by a
scanner that tries a per-position matcher at every index from the left and,
on a match, resumes after the matched text (matches are non-empty, so this
is exactly the non-overlapping iteration of `find_iter`).  The recursive
re-scanning loops take a fuel argument so that they are structurally
recursive and kernel-computable; the wrappers pass `length + 1` fuel, which
is always sufficient because every step consumes at least one character.
Machine integers (`u32`) are modelled as `Nat`: every number the program
parses is at most nine decimal digits, far below `2^32`, and the counters
would need inputs of astronomical size to overflow.
-/

namespace Autocref

/-- The regex character class `[0-9]`. -/
def isDigitCh (c : Char) : Bool := 48 ≤ c.toNat && c.toNat ≤ 57

/-- `TokenType` from `src/lexer.rs`. -/
inductive TokenType where
  | CrossRef
  | FootnoteRef
  | Other
deriving DecidableEq

/-- `Token` from `src/lexer.rs` (contents are a slice of the input). -/
structure Token where
  token_type : TokenType
  contents : List Char
deriving DecidableEq

/-- The fixed literal before the digits in the `lex_doc` regex. -/
def docPre : List Char :=
  ("<w:r><w:rPr><w:rStyle w:val=\"FootnoteReference\" /></w:rPr><w:footnoteReference w:id=\"").data

/-- The fixed literal after the digits in the `lex_doc` regex. -/
def docSuf : List Char := ("\" /></w:r>").data

/-- Does the `lex_doc` regex match at the head of `s`?  Returns the digits of
the id attribute.  The greedy `[0-9]{1,9}` followed by the literal `"` (not a
digit) matches exactly the full digit run when that run has length 1..9 and
is followed by the closing literal. -/
def matchDoc (s : List Char) : Option (List Char) :=
  if docPre.isPrefixOf s then
    let t := s.drop docPre.length
    let ds := t.takeWhile isDigitCh
    if 1 ≤ ds.length ∧ ds.length ≤ 9 ∧ docSuf.isPrefixOf (t.drop ds.length) then some ds
    else none
  else none

/-- Leftmost match of the `lex_doc` regex: index of the match start and the
captured digits. -/
def findDoc : List Char → Option (Nat × List Char)
  | [] => none
  | c :: cs =>
    match matchDoc (c :: cs) with
    | some ds => some (0, ds)
    | none => (findDoc cs).map (fun p => (p.1 + 1, p.2))

/-- The `lex_doc` loop of `src/lexer.rs`, one step per regex match: push the
pending `Other` chunk, push the `FootnoteRef` chunk, resume after the match;
when no match remains, close off the final `Other` chunk.  `fuel` only bounds
the recursion; the zero-fuel case performs the loop-exit action and is never
reached from the wrapper. -/
def lexDocF : Nat → List Char → List Token
  | 0, s => [⟨TokenType.Other, s⟩]
  | fuel + 1, s =>
    match findDoc s with
    | none => [⟨TokenType.Other, s⟩]
    | some (i, ds) =>
      ⟨TokenType.Other, s.take i⟩ :: ⟨TokenType.FootnoteRef, docPre ++ ds ++ docSuf⟩ ::
        lexDocF fuel (s.drop (i + (docPre ++ ds ++ docSuf).length))

/-- `lex_doc` from `src/lexer.rs` (always returns `Ok` in the source; the
`Result` wrapper is omitted). -/
def lex_doc (s : List Char) : List Token := lexDocF (s.length + 1) s

/-- The literal of the single-reference alternative `(>note )` in `lex_fn`. -/
def note6 : List Char := (">note ").data

/-- The literal of the ranged-reference alternative `(>notes )` in `lex_fn`. -/
def notes7 : List Char := (">notes ").data

/-- A match of the `lex_fn` regex: either a single reference (its digits) or a
ranged reference (first digits, dash character, second digits). -/
inductive FnMatch where
  | single (ds : List Char)
  | range (d1 : List Char) (dash : Char) (d2 : List Char)
deriving DecidableEq

/-- First alternative `((>note )([0-9]{1,9}))` of the `lex_fn` regex at the
head of `s`.  The digit group sits at the end of the alternative, so the
greedy `{1,9}` takes up to nine characters of the digit run. -/
def matchFnSingle (s : List Char) : Option (List Char) :=
  if note6.isPrefixOf s then
    let ds := ((s.drop 6).takeWhile isDigitCh).take 9
    if 1 ≤ ds.length then some ds else none
  else none

/-- Second alternative `((>notes )([0-9]{1,9})(-|–)([0-9]{1,9}))` of the
`lex_fn` regex at the head of `s`.  The first digit group is followed by the
dash (not a digit), so it must be the whole run and have length 1..9; the
second digit group ends the alternative and greedily takes up to nine
characters. -/
def matchFnRange (s : List Char) : Option (List Char × Char × List Char) :=
  if notes7.isPrefixOf s then
    let t := s.drop 7
    let d1 := t.takeWhile isDigitCh
    if 1 ≤ d1.length ∧ d1.length ≤ 9 then
      match t.drop d1.length with
      | [] => none
      | c :: u =>
        if c = '-' ∨ c = '–' then
          let d2 := (u.takeWhile isDigitCh).take 9
          if 1 ≤ d2.length then some (d1, c, d2) else none
        else none
    else none
  else none

/-- The full `lex_fn` regex at the head of `s`: leftmost-first alternation
tries the single alternative before the ranged one (the two can never match
at the same position, since one requires `>note ` and the other `>notes `). -/
def matchFn (s : List Char) : Option FnMatch :=
  match matchFnSingle s with
  | some ds => some (FnMatch.single ds)
  | none =>
    match matchFnRange s with
    | some (d1, c, d2) => some (FnMatch.range d1 c d2)
    | none => none

/-- Leftmost match of the `lex_fn` regex. -/
def findFn : List Char → Option (Nat × FnMatch)
  | [] => none
  | c :: cs =>
    match matchFn (c :: cs) with
    | some m => some (0, m)
    | none => (findFn cs).map (fun p => (p.1 + 1, p.2))

/-- The `lex_fn` loop of `src/lexer.rs`.  A single match (no dash in the
matched text) pushes the `Other` chunk up to `mat.start() + 6` (swallowing the
`>note ` literal) and a `CrossRef` chunk holding the digits.  A ranged match
pushes the `Other` chunk up to `mat.start() + 7`, the first digits, the dash
as its own `Other` chunk, and the second digits.  Either way the scan resumes
at the match end, and the last `Other` chunk is closed off at the end. -/
def lexFnF : Nat → List Char → List Token
  | 0, s => [⟨TokenType.Other, s⟩]
  | fuel + 1, s =>
    match findFn s with
    | none => [⟨TokenType.Other, s⟩]
    | some (i, FnMatch.single ds) =>
      ⟨TokenType.Other, s.take (i + 6)⟩ :: ⟨TokenType.CrossRef, ds⟩ ::
        lexFnF fuel (s.drop (i + 6 + ds.length))
    | some (i, FnMatch.range d1 c d2) =>
      ⟨TokenType.Other, s.take (i + 7)⟩ :: ⟨TokenType.CrossRef, d1⟩ ::
        ⟨TokenType.Other, [c]⟩ :: ⟨TokenType.CrossRef, d2⟩ ::
        lexFnF fuel (s.drop (i + 7 + d1.length + 1 + d2.length))

/-- `lex_fn` from `src/lexer.rs` (always returns `Ok` in the source). -/
def lex_fn (s : List Char) : List Token := lexFnF (s.length + 1) s

/-- Ordered concatenation of all token contents. -/
def concatTokens (ts : List Token) : List Char :=
  ts.foldr (fun t r => t.contents ++ r) []

/-- `Branch` from `src/parser.rs` (the `Text`, `FootnoteRef` and `CrossRef`
payload structs are inlined as constructor fields). -/
inductive Branch where
  | Text (contents : List Char)
  | FootnoteRef (number : Nat) (contents : List Char)
  | CrossRef (number : Nat)
deriving DecidableEq

/-- The loop of `parse_fr` in `src/parser.rs`, with the running footnote
counter (`footnote_number` starts at 1 in the wrapper).  `Other` tokens become
`Text` branches, `FootnoteRef` tokens become numbered `FootnoteRef` branches,
and the wildcard arm skips `CrossRef` tokens. -/
def parseFrGo : Nat → List Token → List Branch
  | _, [] => []
  | n, t :: ts =>
    match t.token_type with
    | TokenType.Other => Branch.Text t.contents :: parseFrGo n ts
    | TokenType.FootnoteRef => Branch.FootnoteRef n t.contents :: parseFrGo (n + 1) ts
    | TokenType.CrossRef => parseFrGo n ts

/-- `parse_fr` from `src/parser.rs` (always returns `Ok` in the source; the
`Result` wrapper is omitted). -/
def parse_fr (ts : List Token) : List Branch := parseFrGo 1 ts

/-- The numeric value of a decimal digit string. -/
def digitsVal (ds : List Char) : Nat :=
  ds.foldl (fun a c => a * 10 + (c.toNat - 48)) 0

/-- `str::parse::<u32>` on a character list: an optional leading `+`, then at
least one character, all decimal digits, and a value below `2^32`. -/
def parseU32 (s : List Char) : Option Nat :=
  match s with
  | '+' :: r =>
    if 1 ≤ r.length ∧ r.all isDigitCh then
      if digitsVal r < 4294967296 then some (digitsVal r) else none
    else none
  | _ =>
    if 1 ≤ s.length ∧ s.all isDigitCh then
      if digitsVal s < 4294967296 then some (digitsVal s) else none
    else none

/-- The `referred_fns` update of `parse_cr`: append a footnote number unless
it is already present. -/
def pushNew (refd : List Nat) (n : Nat) : List Nat :=
  if n ∈ refd then refd else refd ++ [n]

/-- The loop of `parse_cr` in `src/parser.rs`, threading the accumulated
`referred_fns` list.  `Other` tokens become `Text` branches; `CrossRef` token
contents are parsed as `u32` (a parse failure aborts with the
"Error parsing cross references" error, modelled as `none`); the wildcard arm
skips `FootnoteRef` tokens. -/
def parseCrGo : List Nat → List Token → Option (List Branch × List Nat)
  | refd, [] => some ([], refd)
  | refd, t :: ts =>
    match t.token_type with
    | TokenType.Other =>
      (parseCrGo refd ts).map (fun p => (Branch.Text t.contents :: p.1, p.2))
    | TokenType.CrossRef =>
      match parseU32 t.contents with
      | none => none
      | some n =>
        (parseCrGo (pushNew refd n) ts).map (fun p => (Branch.CrossRef n :: p.1, p.2))
    | TokenType.FootnoteRef => parseCrGo refd ts

/-- `parse_cr` from `src/parser.rs`. -/
def parse_cr (ts : List Token) : Option (List Branch × List Nat) :=
  parseCrGo [] ts

/-- The numbers of the `FootnoteRef` branches of a branch sequence, in order. -/
def frNumbers (bs : List Branch) : List Nat :=
  bs.filterMap (fun b =>
    match b with
    | Branch.FootnoteRef n _ => some n
    | _ => none)

/-- The numbers of the `CrossRef` branches of a branch sequence, in order
(with multiplicity). -/
def crNumbers (bs : List Branch) : List Nat :=
  bs.filterMap (fun b =>
    match b with
    | Branch.CrossRef n => some n
    | _ => none)

/-- Collapse a number list to its first occurrences, in order (the effect of
`parse_cr`'s membership-guarded pushes). -/
def firstOccur (ns : List Nat) : List Nat := ns.foldl pushNew []

/-- The number of `FootnoteRef` tokens in a token sequence. -/
def countFR (ts : List Token) : Nat :=
  ts.countP (fun t => t.token_type = TokenType.FootnoteRef)

/-- `create_ref_id` from `src/render.rs`: `"_Ref"`, then `'0'` pushed while
the length is below `13 - number_str.len()` (the loop's effect is
`(13 - number_str.len()) - 4` zeros, which truncated `Nat` subtraction
renders exactly), then the decimal digits of the number. -/
def create_ref_id (n : Nat) : List Char :=
  ("_Ref").data ++ List.replicate (13 - (Nat.toDigits 10 n).length - 4) '0'
    ++ Nat.toDigits 10 n

/-- The `<w:bookmarkStart .../>` tag emitted by `render_doc`. -/
def bmkStartTag (bid : Nat) (rid : List Char) : List Char :=
  ("<w:bookmarkStart w:id=\"").data ++ Nat.toDigits 10 bid
    ++ ("\" w:name=\"").data ++ rid ++ ("\"/>").data

/-- The `<w:bookmarkEnd .../>` tag emitted by `render_doc`. -/
def bmkEndTag (bid : Nat) : List Char :=
  ("<w:bookmarkEnd w:id=\"").data ++ Nat.toDigits 10 bid ++ ("\"/>").data

/-- `HashMap::insert` on an association list (replace or append).  Only
lookups observe the map, so the list order is irrelevant to the program. -/
def insertRef : List (Nat × List Char) → Nat → List Char → List (Nat × List Char)
  | [], k, v => [(k, v)]
  | (p, w) :: rest, k, v =>
    if p = k then (k, v) :: rest else (p, w) :: insertRef rest k v

/-- `HashMap` key lookup on an association list. -/
def lookupRef : List (Nat × List Char) → Nat → Option (List Char)
  | [], _ => none
  | (p, w) :: rest, k => if p = k then some w else lookupRef rest k

/-- The loop of `render_doc` in `src/render.rs`, threading the bookmark
counter and the `ref_ids` map.  Besides the output text and the final map it
also returns the list of bookmark ids the loop used, in emission order (a
ghost output used to state the id invariants; the source embeds these ids in
the output text). -/
def renderDocGo : List Branch → List Nat → Nat → List (Nat × List Char) →
    List Char × List (Nat × List Char) × List Nat
  | [], _, _, tbl => ([], tbl, [])
  | b :: bs, refd, counter, tbl =>
    match b with
    | Branch.Text c =>
      let p := renderDocGo bs refd counter tbl
      (c ++ p.1, p.2.1, p.2.2)
    | Branch.FootnoteRef n c =>
      if n ∈ refd then
        let p := renderDocGo bs refd (counter + 1) (insertRef tbl n (create_ref_id n))
        (bmkStartTag counter (create_ref_id n) ++ c ++ bmkEndTag counter ++ p.1,
          p.2.1, counter :: p.2.2)
      else
        let p := renderDocGo bs refd counter tbl
        (c ++ p.1, p.2.1, p.2.2)
    | Branch.CrossRef _ =>
      let p := renderDocGo bs refd counter tbl
      (p.1, p.2.1, p.2.2)

/-- `render_doc` from `src/render.rs`: the new `document.xml` text and the
`ref_ids` map (always returns `Ok` in the source). -/
def render_doc (tree : List Branch) (refd : List Nat) (starting : Nat) :
    List Char × List (Nat × List Char) :=
  ((renderDocGo tree refd starting []).1, (renderDocGo tree refd starting []).2.1)

/-- The bookmark ids emitted by `render_doc`, in emission order. -/
def emittedIds (tree : List Branch) (refd : List Nat) (starting : Nat) : List Nat :=
  (renderDocGo tree refd starting []).2.2

/-- The cross-reference field fragment emitted by `render_fn` for reference
id `rid` and footnote number `n`. -/
def crField (rid : List Char) (n : Nat) : List Char :=
  ("</w:t></w:r><w:fldSimple w:instr=\" NOTEREF ").data ++ rid
    ++ (" \"><w:r><w:t>").data ++ Nat.toDigits 10 n
    ++ ("</w:t></w:r></w:fldSimple><w:r><w:t xml:space=\"preserve\">").data

/-- `render_fn` from `src/render.rs`.  The `ref_ids[&cross_ref.number]`
indexing panics when the key is absent; the panic is modelled as `none`. -/
def render_fn : List Branch → List (Nat × List Char) → Option (List Char)
  | [], _ => some []
  | b :: bs, tbl =>
    match b with
    | Branch.Text c => (render_fn bs tbl).map (fun r => c ++ r)
    | Branch.CrossRef n =>
      match lookupRef tbl n with
      | none => none
      | some rid => (render_fn bs tbl).map (fun r => crField rid n ++ r)
    | Branch.FootnoteRef _ _ => render_fn bs tbl

/-- `render` from `src/render.rs`: the document pass, then the footnotes pass
over the `ref_ids` map the document pass built. -/
def render (doc_tree : List Branch) (refd : List Nat) (starting : Nat)
    (fn_tree : List Branch) : Option (List Char × List Char) :=
  match render_fn fn_tree (render_doc doc_tree refd starting).2 with
  | none => none
  | some f => some ((render_doc doc_tree refd starting).1, f)

/-- The literal before the digits in the `starting_bookmark` regex
`(<w:bookmarkStart w:id=")([0-9]{1,9})`. -/
def bmkLit : List Char := ("<w:bookmarkStart w:id=\"").data

/-- Does the `starting_bookmark` regex match at the head of `s`?  Returns the
captured digits: the group ends the pattern, so the greedy `{1,9}` takes up
to nine characters of the digit run. -/
def matchBmk (s : List Char) : Option (List Char) :=
  if bmkLit.isPrefixOf s then
    let ds := ((s.drop bmkLit.length).takeWhile isDigitCh).take 9
    if 1 ≤ ds.length then some ds else none
  else none

/-- Leftmost match of the `starting_bookmark` regex. -/
def findBmk : List Char → Option (Nat × List Char)
  | [] => none
  | c :: cs =>
    match matchBmk (c :: cs) with
    | some ds => some (0, ds)
    | none => (findBmk cs).map (fun p => (p.1 + 1, p.2))

/-- The captures of `captures_iter` in `starting_bookmark`, in order (fuel as
in the lexers). -/
def bmkCapsF : Nat → List Char → List (List Char)
  | 0, _ => []
  | fuel + 1, s =>
    match findBmk s with
    | none => []
    | some (i, ds) => ds :: bmkCapsF fuel (s.drop (i + bmkLit.length + ds.length))

/-- All digit captures of the bookmark-start pattern in `s`, in order. -/
def bmkCaps (s : List Char) : List (List Char) := bmkCapsF (s.length + 1) s

/-- `starting_bookmark` from `src/bookmarks.rs`: parse every capture as `u32`
(a failure aborts with the "Error parsing existing bookmarks" error,
modelled as `none`), then return the maximum plus one, or 1 when there is no
bookmark. -/
def starting_bookmark (s : List Char) : Option Nat :=
  match (bmkCaps s).mapM parseU32 with
  | none => none
  | some ids =>
    match ids.max? with
    | some m => some (m + 1)
    | none => some 1

/-- The value `starting_bookmark` is proved to return: one more than the
largest captured bookmark id, or 1 when no bookmark-start pattern occurs. -/
def startVal (s : List Char) : Nat :=
  match ((bmkCaps s).map digitsVal).max? with
  | some m => m + 1
  | none => 1

/-- The number of `FootnoteRef` branches whose number is in the referenced
set — the branches for which `render_doc` consumes a bookmark id. -/
def countRefdFR (bs : List Branch) (refd : List Nat) : Nat :=
  bs.countP (fun b =>
    match b with
    | Branch.FootnoteRef n _ => decide (n ∈ refd)
    | _ => false)

/-- The whole pipeline of `lib.rs` (`autocref` minus the archive I/O):
allocator, lexer, parser, renderer. -/
def process (doc fns : List Char) : Option (List Char × List Char) :=
  match starting_bookmark doc with
  | none => none
  | some starting =>
    match parse_cr (lex_fn fns) with
    | none => none
    | some (fn_branches, refd) =>
      render (parse_fr (lex_doc doc)) refd starting fn_branches

/-- The text a branch contributes to the output when no markup is added
(`Text` and `FootnoteRef` contents verbatim, `CrossRef` nothing). -/
def branchContents (b : Branch) : List Char :=
  match b with
  | Branch.Text c => c
  | Branch.FootnoteRef _ c => c
  | Branch.CrossRef _ => []

/-- Ordered concatenation of all branch contents. -/
def branchConcat (bs : List Branch) : List Char :=
  bs.foldr (fun b r => branchContents b ++ r) []

@[simp] theorem concatTokens_nil : concatTokens [] = [] := rfl

@[simp] theorem concatTokens_cons (t : Token) (ts : List Token) :
    concatTokens (t :: ts) = t.contents ++ concatTokens ts := rfl

theorem prefix_decomp {α : Type} {a t : List α} (h : a <+: t) :
    t = a ++ t.drop a.length := by
  obtain ⟨r, rfl⟩ := h
  rw [List.drop_left]

theorem isPrefixOf_decomp {a t : List Char} (h : a.isPrefixOf t) :
    t = a ++ t.drop a.length :=
  prefix_decomp ( List.isPrefixOf_iff_prefix.mp h)

theorem matchDoc_eq_some {s ds : List Char} (h : matchDoc s = some ds) :
    1 ≤ ds.length ∧ ds.length ≤ 9 ∧ (∀ c ∈ ds, isDigitCh c) ∧
      ∃ r, s = docPre ++ (ds ++ (docSuf ++ r)) := by
  simp only [matchDoc] at h
  split at h
  · split at h
    · rename_i hpre hcond
      injection h with h
      subst h
      refine ⟨hcond.1, hcond.2.1, fun c hc => List.mem_takeWhile_imp hc, ?_⟩
      have e1 := isPrefixOf_decomp hpre
      have hds0 : (s.drop docPre.length).takeWhile isDigitCh <+: s.drop docPre.length :=
        List.takeWhile_prefix isDigitCh
      have e2 := prefix_decomp hds0
      have e3 := isPrefixOf_decomp hcond.2.2
      exact ⟨_, by conv_lhs => rw [e1, e2, e3]⟩
    · exact absurd h (by simp)
  · exact absurd h (by simp)

theorem findDoc_eq_some : ∀ (s : List Char) {i : Nat} {ds : List Char},
    findDoc s = some (i, ds) → matchDoc (s.drop i) = some ds := by
  intro s
  induction s with
  | nil => intro i ds h; simp [findDoc] at h
  | cons c cs ih =>
    intro i ds h
    rw [findDoc] at h
    cases hm : matchDoc (c :: cs) with
    | some ds' =>
      rw [hm] at h
      simp only [Option.some.injEq, Prod.mk.injEq] at h
      obtain ⟨h1, h2⟩ := h
      subst h1; subst h2
      simpa using hm
    | none =>
      rw [hm] at h
      cases hf : findDoc cs with
      | none => rw [hf] at h; simp at h
      | some p =>
        obtain ⟨i', ds'⟩ := p
        rw [hf] at h
        simp only [Option.map_some', Option.some.injEq, Prod.mk.injEq] at h
        obtain ⟨h1, h2⟩ := h
        subst h1; subst h2
        simpa using ih hf

theorem lexDocF_concat : ∀ (fuel : Nat) (s : List Char),
    concatTokens (lexDocF fuel s) = s := by
  intro fuel
  induction fuel with
  | zero => intro s; simp [lexDocF]
  | succ n ih =>
    intro s
    rw [lexDocF]
    cases hf : findDoc s with
    | none => simp
    | some p =>
      obtain ⟨i, ds⟩ := p
      obtain ⟨-, -, -, r, hr⟩ := matchDoc_eq_some (findDoc_eq_some s hf)
      have hdrop : s.drop (i + (docPre ++ ds ++ docSuf).length) = r := by
        rw [← List.drop_drop, hr]
        have e : docPre ++ (ds ++ (docSuf ++ r)) = (docPre ++ ds ++ docSuf) ++ r := by
          simp [List.append_assoc]
        rw [e, List.drop_left]
      simp only [concatTokens_cons, ih, hdrop]
      calc s.take i ++ ((docPre ++ ds ++ docSuf) ++ r)
          = s.take i ++ s.drop i := by rw [hr]; simp [List.append_assoc]
        _ = s := List.take_append_drop i s

theorem matchFnSingle_eq_some {s ds : List Char} (h : matchFnSingle s = some ds) :
    1 ≤ ds.length ∧ ds.length ≤ 9 ∧ (∀ c ∈ ds, isDigitCh c) ∧
      ∃ r, s = note6 ++ (ds ++ r) := by
  simp only [matchFnSingle] at h
  split at h
  · split at h
    · rename_i hpre hlen
      injection h with h
      subst h
      refine ⟨hlen, List.length_take_le 9 _, fun c hc =>
        List.mem_takeWhile_imp (List.mem_of_mem_take hc), ?_⟩
      have e1 := isPrefixOf_decomp hpre
      have hds : ((s.drop 6).takeWhile isDigitCh).take 9 <+: s.drop 6 :=
        ( List.take_prefix 9 _).trans ( List.takeWhile_prefix isDigitCh)
      have e2 := prefix_decomp hds
      have e6 : note6.length = 6 := rfl
      rw [e6] at e1
      exact ⟨_, by conv_lhs => rw [e1, e2]⟩
    · exact absurd h (by simp)
  · exact absurd h (by simp)

theorem matchFnRange_eq_some {s d1 d2 : List Char} {c : Char}
    (h : matchFnRange s = some (d1, c, d2)) :
    1 ≤ d1.length ∧ d1.length ≤ 9 ∧ (∀ x ∈ d1, isDigitCh x) ∧
      1 ≤ d2.length ∧ d2.length ≤ 9 ∧ (∀ x ∈ d2, isDigitCh x) ∧
      (c = '-' ∨ c = '–') ∧
      ∃ r, s = notes7 ++ (d1 ++ (c :: (d2 ++ r))) := by
  simp only [matchFnRange] at h
  split at h
  · rename_i hpre
    split at h
    · rename_i hd1
      split at h
      · simp at h
      · rename_i c' u hcons
        split at h
        · rename_i hdash
          split at h
          · rename_i hd2
            simp only [Option.some.injEq, Prod.mk.injEq] at h
            obtain ⟨h1, h2, h3⟩ := h
            subst h1; subst h2; subst h3
            refine ⟨hd1.1, hd1.2, fun x hx => List.mem_takeWhile_imp hx,
              hd2, List.length_take_le 9 _,
              fun x hx => List.mem_takeWhile_imp (List.mem_of_mem_take hx),
              hdash, ?_⟩
            have e1 := isPrefixOf_decomp hpre
            have e7 : notes7.length = 7 := rfl
            rw [e7] at e1
            have hds0 : (s.drop 7).takeWhile isDigitCh <+: s.drop 7 :=
              List.takeWhile_prefix isDigitCh
            have e2 := prefix_decomp hds0
            have hd2p : (u.takeWhile isDigitCh).take 9 <+: u :=
              ( List.take_prefix 9 _).trans ( List.takeWhile_prefix isDigitCh)
            have e3 := prefix_decomp hd2p
            exact ⟨_, by conv_lhs => rw [e1, e2, hcons, e3]⟩
          · exact absurd h (by simp)
        · exact absurd h (by simp)
    · exact absurd h (by simp)
  · exact absurd h (by simp)

theorem matchFn_eq_single {s ds : List Char} (h : matchFn s = some (FnMatch.single ds)) :
    matchFnSingle s = some ds := by
  simp only [matchFn] at h
  split at h
  · rename_i hm
    injection h with h
    injection h with h
    subst h
    exact hm
  · split at h
    · simp at h
    · simp at h

theorem matchFn_eq_range {s d1 d2 : List Char} {c : Char}
    (h : matchFn s = some (FnMatch.range d1 c d2)) :
    matchFnRange s = some (d1, c, d2) := by
  simp only [matchFn] at h
  split at h
  · simp at h
  · split at h
    · rename_i hm
      injection h with h
      injection h with h1 h2 h3
      subst h1; subst h2; subst h3
      exact hm
    · simp at h

theorem findFn_eq_some : ∀ (s : List Char) {i : Nat} {m : FnMatch},
    findFn s = some (i, m) → matchFn (s.drop i) = some m := by
  intro s
  induction s with
  | nil => intro i m h; simp [findFn] at h
  | cons c cs ih =>
    intro i m h
    rw [findFn] at h
    cases hm : matchFn (c :: cs) with
    | some m' =>
      rw [hm] at h
      simp only [Option.some.injEq, Prod.mk.injEq] at h
      obtain ⟨h1, h2⟩ := h
      subst h1; subst h2
      simpa using hm
    | none =>
      rw [hm] at h
      cases hf : findFn cs with
      | none => rw [hf] at h; simp at h
      | some p =>
        obtain ⟨i', m'⟩ := p
        rw [hf] at h
        simp only [Option.map_some', Option.some.injEq, Prod.mk.injEq] at h
        obtain ⟨h1, h2⟩ := h
        subst h1; subst h2
        simpa using ih hf

theorem lexFnF_concat : ∀ (fuel : Nat) (s : List Char),
    concatTokens (lexFnF fuel s) = s := by
  intro fuel
  induction fuel with
  | zero => intro s; simp [lexFnF]
  | succ n ih =>
    intro s
    rw [lexFnF]
    cases hf : findFn s with
    | none => simp
    | some p =>
      obtain ⟨i, m⟩ := p
      cases m with
      | single ds =>
        obtain ⟨-, -, -, r, hr⟩ := matchFnSingle_eq_some (matchFn_eq_single (findFn_eq_some s hf))
        have htake : s.take (i + 6) = s.take i ++ note6 := by
          rw [List.take_add, hr]
          rw [List.take_left' (show note6.length = 6 from rfl)]
        have hdrop : s.drop (i + 6 + ds.length) = r := by
          have e : i + 6 + ds.length = i + (note6 ++ ds).length := by
            simp [note6]
            omega
          rw [e, ← List.drop_drop, hr]
          have e2 : note6 ++ (ds ++ r) = (note6 ++ ds) ++ r := by simp
          rw [e2, List.drop_left]
        simp only [concatTokens_cons, ih, hdrop, htake]
        calc s.take i ++ note6 ++ (ds ++ r)
            = s.take i ++ s.drop i := by rw [hr]; simp
          _ = s := List.take_append_drop i s
      | range d1 c d2 =>
        obtain ⟨-, -, -, -, -, -, -, r, hr⟩ :=
          matchFnRange_eq_some (matchFn_eq_range (findFn_eq_some s hf))
        have htake : s.take (i + 7) = s.take i ++ notes7 := by
          rw [List.take_add, hr]
          rw [List.take_left' (show notes7.length = 7 from rfl)]
        have hdrop : s.drop (i + 7 + d1.length + 1 + d2.length) = r := by
          have e : i + 7 + d1.length + 1 + d2.length
              = i + (notes7 ++ d1 ++ ([c] ++ d2)).length := by
            simp [notes7]
            omega
          rw [e, ← List.drop_drop, hr]
          have e2 : notes7 ++ (d1 ++ (c :: (d2 ++ r)))
              = (notes7 ++ d1 ++ ([c] ++ d2)) ++ r := by simp
          rw [e2, List.drop_left]
        simp only [concatTokens_cons, ih, hdrop, htake]
        calc s.take i ++ notes7 ++ (d1 ++ ([c] ++ (d2 ++ r)))
            = s.take i ++ s.drop i := by rw [hr]; simp
          _ = s := List.take_append_drop i s

/-- C1: for every input string, concatenating the contents of all tokens
produced by the document sub-lexer `lex_doc` in order equals the input string
exactly, and likewise for the footnotes sub-lexer `lex_fn`. -/
theorem lexer_roundtrip :
    (∀ s : List Char, concatTokens (lex_doc s) = s) ∧
    (∀ s : List Char, concatTokens (lex_fn s) = s) :=
  ⟨fun s => lexDocF_concat (s.length + 1) s, fun s => lexFnF_concat (s.length + 1) s⟩

@[simp] theorem parseFrGo_nil (n : Nat) : parseFrGo n [] = [] := rfl

@[simp] theorem parseFrGo_other (n : Nat) (tc : List Char) (ts : List Token) :
    parseFrGo n (⟨TokenType.Other, tc⟩ :: ts) = Branch.Text tc :: parseFrGo n ts := rfl

@[simp] theorem parseFrGo_fr (n : Nat) (tc : List Char) (ts : List Token) :
    parseFrGo n (⟨TokenType.FootnoteRef, tc⟩ :: ts)
      = Branch.FootnoteRef n tc :: parseFrGo (n + 1) ts := rfl

@[simp] theorem parseFrGo_cr (n : Nat) (tc : List Char) (ts : List Token) :
    parseFrGo n (⟨TokenType.CrossRef, tc⟩ :: ts) = parseFrGo n ts := rfl

@[simp] theorem frNumbers_nil : frNumbers [] = [] := rfl

@[simp] theorem frNumbers_cons_text (c : List Char) (bs : List Branch) :
    frNumbers (Branch.Text c :: bs) = frNumbers bs := rfl

@[simp] theorem frNumbers_cons_fr (n : Nat) (c : List Char) (bs : List Branch) :
    frNumbers (Branch.FootnoteRef n c :: bs) = n :: frNumbers bs := rfl

@[simp] theorem frNumbers_cons_cr (n : Nat) (bs : List Branch) :
    frNumbers (Branch.CrossRef n :: bs) = frNumbers bs := rfl

@[simp] theorem crNumbers_nil : crNumbers [] = [] := rfl

@[simp] theorem crNumbers_cons_text (c : List Char) (bs : List Branch) :
    crNumbers (Branch.Text c :: bs) = crNumbers bs := rfl

@[simp] theorem crNumbers_cons_fr (n : Nat) (c : List Char) (bs : List Branch) :
    crNumbers (Branch.FootnoteRef n c :: bs) = crNumbers bs := rfl

@[simp] theorem crNumbers_cons_cr (n : Nat) (bs : List Branch) :
    crNumbers (Branch.CrossRef n :: bs) = n :: crNumbers bs := rfl

@[simp] theorem countFR_nil : countFR [] = 0 := rfl

@[simp] theorem countFR_cons (tt : TokenType) (tc : List Char) (ts : List Token) :
    countFR (⟨tt, tc⟩ :: ts)
      = countFR ts + (if tt = TokenType.FootnoteRef then 1 else 0) := by
  simp [countFR, List.countP_cons]

theorem frNumbers_parseFrGo : ∀ (ts : List Token) (n : Nat),
    frNumbers (parseFrGo n ts) = List.range' n (countFR ts) := by
  intro ts
  induction ts with
  | nil => intro n; simp
  | cons t ts ih =>
    intro n
    obtain ⟨tt, tc⟩ := t
    cases tt with
    | Other => simpa using ih n
    | FootnoteRef =>
      simp only [parseFrGo_fr, frNumbers_cons_fr, countFR_cons]
      rw [ih (n + 1)]
      simp [List.range'_succ]
    | CrossRef => simpa using ih n

/-- C2: in the branch sequence returned by `parse_fr`, the k-th branch of
kind `FootnoteRef` (in output order, 1-based) carries number exactly k: the
numbers form the sequence 1, 2, ... with no gaps. -/
theorem parse_fr_sequential :
    ∀ ts : List Token,
      frNumbers (parse_fr ts) = List.range' 1 (countFR ts) ∧
      ∀ k (h : k < (frNumbers (parse_fr ts)).length),
        (frNumbers (parse_fr ts)).get ⟨k, h⟩ = k + 1 := by
  intro ts
  have h := frNumbers_parseFrGo ts 1
  rw [parse_fr]
  refine ⟨h, ?_⟩
  intro k hk
  simp only [List.get_eq_getElem]
  have hk2 : k < (List.range' 1 (countFR ts)).length := by
    simpa [h] using hk
  calc (frNumbers (parseFrGo 1 ts))[k] = (List.range' 1 (countFR ts))[k] := by
        congr 1
    _ = k + 1 := by rw [List.getElem_range'_1]; omega

/-- C2 witness: on two `FootnoteRef` tokens, the second `FootnoteRef` branch
carries number 2. -/
theorem parse_fr_sequential_witness :
    (frNumbers (parse_fr [⟨TokenType.FootnoteRef, []⟩, ⟨TokenType.FootnoteRef, []⟩])).get
        ⟨1, by decide⟩ = 1 + 1 :=
  (parse_fr_sequential [⟨TokenType.FootnoteRef, []⟩, ⟨TokenType.FootnoteRef, []⟩]).2 1 (by decide)

theorem mem_pushNew {refd : List Nat} {n m : Nat} :
    m ∈ pushNew refd n ↔ m ∈ refd ∨ m = n := by
  unfold pushNew
  split
  · rename_i hn
    constructor
    · exact Or.inl
    · rintro (h | rfl)
      · exact h
      · exact hn
  · simp

theorem foldl_pushNew_mem : ∀ (l refd : List Nat) (m : Nat),
    m ∈ l.foldl pushNew refd ↔ m ∈ refd ∨ m ∈ l := by
  intro l
  induction l with
  | nil => simp
  | cons a l ih =>
    intro refd m
    simp only [List.foldl_cons, ih, mem_pushNew, List.mem_cons]
    tauto

theorem pushNew_nodup {refd : List Nat} {n : Nat} (h : refd.Nodup) :
    (pushNew refd n).Nodup := by
  unfold pushNew
  split
  · exact h
  · rename_i hn
    simp [List.nodup_append, h, hn]

theorem foldl_pushNew_nodup : ∀ (l refd : List Nat), refd.Nodup →
    (l.foldl pushNew refd).Nodup := by
  intro l
  induction l with
  | nil => intro refd h; exact h
  | cons a l ih =>
    intro refd h
    exact ih _ (pushNew_nodup h)

theorem crNumbers_mem {bs : List Branch} {n : Nat} :
    n ∈ crNumbers bs ↔ Branch.CrossRef n ∈ bs := by
  simp only [crNumbers, List.mem_filterMap]
  constructor
  · rintro ⟨a, ha, hm⟩
    cases a with
    | Text c => simp at hm
    | FootnoteRef k c => simp at hm
    | CrossRef k =>
      simp only [Option.some.injEq] at hm
      subst hm
      exact ha
  · intro hb
    exact ⟨_, hb, rfl⟩

theorem parseCrGo_snd : ∀ (ts : List Token) (refd out : List Nat) (brs : List Branch),
    parseCrGo refd ts = some (brs, out) → out = (crNumbers brs).foldl pushNew refd := by
  intro ts
  induction ts with
  | nil =>
    intro refd out brs h
    simp only [parseCrGo, Option.some.injEq, Prod.mk.injEq] at h
    obtain ⟨h1, h2⟩ := h
    subst h1; subst h2
    simp [crNumbers]
  | cons t ts ih =>
    intro refd out brs h
    obtain ⟨tt, tc⟩ := t
    cases tt with
    | Other =>
      simp only [parseCrGo] at h
      cases hrec : parseCrGo refd ts with
      | none => rw [hrec] at h; simp at h
      | some p =>
        obtain ⟨brs', out'⟩ := p
        rw [hrec] at h
        simp only [Option.map_some', Option.some.injEq, Prod.mk.injEq] at h
        obtain ⟨h1, h2⟩ := h
        subst h1; subst h2
        simpa [crNumbers] using ih refd out' brs' hrec
    | CrossRef =>
      simp only [parseCrGo] at h
      split at h
      · simp at h
      · rename_i n hp
        cases hrec : parseCrGo (pushNew refd n) ts with
        | none => rw [hrec] at h; simp at h
        | some p =>
          obtain ⟨brs', out'⟩ := p
          rw [hrec] at h
          simp only [Option.map_some', Option.some.injEq, Prod.mk.injEq] at h
          obtain ⟨h1, h2⟩ := h
          subst h1; subst h2
          simpa using ih (pushNew refd n) out' brs' hrec
    | FootnoteRef =>
      simp only [parseCrGo] at h
      exact ih refd out brs h

/-- C3: for every token sequence accepted by `parse_cr`, the returned
referenced list is exactly the first occurrences, in order, of the numbers
carried by the `CrossRef` branches; it has no duplicates, and a number is in
it iff some `CrossRef` branch carries it. -/
theorem parse_cr_referenced_set :
    ∀ (ts : List Token) (brs : List Branch) (refd : List Nat),
      parse_cr ts = some (brs, refd) →
      refd = firstOccur (crNumbers brs) ∧ refd.Nodup ∧
        ∀ n, n ∈ refd ↔ Branch.CrossRef n ∈ brs := by
  intro ts brs refd h
  have h1 : refd = (crNumbers brs).foldl pushNew [] := parseCrGo_snd ts [] refd brs h
  refine ⟨h1, ?_, ?_⟩
  · rw [h1]
    exact foldl_pushNew_nodup _ _ List.nodup_nil
  · intro n
    rw [h1, foldl_pushNew_mem]
    simp [crNumbers_mem]

/-- C3 witness: on the cross-reference token sequence 2, 1, 2 the referenced
list is the first-occurrence list (2, 1), without duplicates. -/
theorem parse_cr_referenced_set_witness :
    ([2, 1] : List Nat) =
        firstOccur (crNumbers [Branch.CrossRef 2, Branch.CrossRef 1, Branch.CrossRef 2]) ∧
      ([2, 1] : List Nat).Nodup ∧
      ∀ n, n ∈ ([2, 1] : List Nat) ↔
        Branch.CrossRef n ∈ [Branch.CrossRef 2, Branch.CrossRef 1, Branch.CrossRef 2] :=
  parse_cr_referenced_set
    [⟨TokenType.CrossRef, ['2']⟩, ⟨TokenType.CrossRef, ['1']⟩, ⟨TokenType.CrossRef, ['2']⟩]
    [Branch.CrossRef 2, Branch.CrossRef 1, Branch.CrossRef 2] [2, 1] (by decide)

/-- C8: for every footnote number with at most nine decimal digits,
`create_ref_id` returns a 13-character string: the 4-character literal
`"_Ref"` followed by the decimal digits left-padded with zeros to fill the
remaining nine positions. -/
theorem create_ref_id_format :
    ∀ n : Nat, (Nat.toDigits 10 n).length ≤ 9 →
      (create_ref_id n).length = 13 ∧
      create_ref_id n = ("_Ref").data ++
        (List.replicate (9 - (Nat.toDigits 10 n).length) '0' ++ Nat.toDigits 10 n) := by
  intro n h
  have h4 : ("_Ref").data.length = 4 := rfl
  have hrep : 13 - (Nat.toDigits 10 n).length - 4 = 9 - (Nat.toDigits 10 n).length := by
    omega
  constructor
  · simp only [create_ref_id, List.length_append, List.length_replicate, h4, hrep]
    omega
  · simp [create_ref_id, hrep]

/-- C8 witness: footnote number 1 maps to the 13-character id
`"_Ref000000001"`. -/
theorem create_ref_id_format_witness :
    ((create_ref_id 1).length = 13 ∧
      create_ref_id 1 = ("_Ref").data ++
        (List.replicate (9 - (Nat.toDigits 10 1).length) '0' ++ Nat.toDigits 10 1)) ∧
    create_ref_id 1 = ("_Ref000000001").data :=
  ⟨create_ref_id_format 1 (by decide), by decide⟩

/-- C6: for a `CrossRef` branch whose number has an entry in the reference-id
table, `render_fn` emits exactly the four-part field fragment with the
reference id and the decimal number substituted, and it emits every `Text`
branch verbatim. -/
theorem render_fn_fragment :
    ∀ (tbl : List (Nat × List Char)) (n : Nat) (rid : List Char) (bs : List Branch)
      (c : List Char),
      (lookupRef tbl n = some rid →
        render_fn (Branch.CrossRef n :: bs) tbl =
          (render_fn bs tbl).map (fun r =>
            ("</w:t></w:r><w:fldSimple w:instr=\" NOTEREF ").data ++
              (rid ++ ((" \"><w:r><w:t>").data ++ (Nat.toDigits 10 n ++
                (("</w:t></w:r></w:fldSimple><w:r><w:t xml:space=\"preserve\">").data
                  ++ r)))))) ∧
      render_fn (Branch.Text c :: bs) tbl = (render_fn bs tbl).map (fun r => c ++ r) := by
  intro tbl n rid bs c
  constructor
  · intro h
    simp only [render_fn, h]
    congr 1
    funext r
    simp [crField]
  · rfl

/-- C6 witness: a single cross-reference to footnote 1 with reference id
`"_Ref000000001"` renders to the exact field fragment. -/
theorem render_fn_fragment_witness :
    render_fn [Branch.CrossRef 1] [(1, ("_Ref000000001").data)] =
      some (("</w:t></w:r><w:fldSimple w:instr=\" NOTEREF _Ref000000001 \"><w:r><w:t>1</w:t></w:r></w:fldSimple><w:r><w:t xml:space=\"preserve\">").data) := by
  have h := (render_fn_fragment [(1, ("_Ref000000001").data)] 1 (("_Ref000000001").data)
    [] []).1 (by decide)
  rw [h]
  decide

@[simp] theorem branchConcat_nil : branchConcat [] = [] := rfl

@[simp] theorem branchConcat_cons (b : Branch) (bs : List Branch) :
    branchConcat (b :: bs) = branchContents b ++ branchConcat bs := rfl

theorem renderDocGo_empty_refd : ∀ (bs : List Branch) (counter : Nat)
    (tbl : List (Nat × List Char)),
    renderDocGo bs [] counter tbl = (branchConcat bs, tbl, []) := by
  intro bs
  induction bs with
  | nil => intro counter tbl; rfl
  | cons b bs ih =>
    intro counter tbl
    cases b with
    | Text c => simp [renderDocGo, ih, branchContents]
    | FootnoteRef n c => simp [renderDocGo, ih, branchContents]
    | CrossRef n => simp [renderDocGo, ih, branchContents]

theorem lexDocF_no_crossref : ∀ (fuel : Nat) (s : List Char) (t : Token),
    t ∈ lexDocF fuel s → t.token_type ≠ TokenType.CrossRef := by
  intro fuel
  induction fuel with
  | zero =>
    intro s t ht
    simp only [lexDocF, List.mem_singleton] at ht
    subst ht
    simp
  | succ n ih =>
    intro s t ht
    rw [lexDocF] at ht
    cases hf : findDoc s with
    | none =>
      rw [hf] at ht
      simp only [List.mem_singleton] at ht
      subst ht
      simp
    | some p =>
      obtain ⟨i, ds⟩ := p
      rw [hf] at ht
      simp only [List.mem_cons] at ht
      rcases ht with rfl | rfl | ht
      · simp
      · simp
      · exact ih _ t ht

theorem parseFrGo_concat : ∀ (ts : List Token) (n : Nat),
    (∀ t ∈ ts, t.token_type ≠ TokenType.CrossRef) →
    branchConcat (parseFrGo n ts) = concatTokens ts := by
  intro ts
  induction ts with
  | nil => intro n h; rfl
  | cons t ts ih =>
    intro n h
    obtain ⟨tt, tc⟩ := t
    cases tt with
    | Other =>
      simp only [parseFrGo_other, branchConcat_cons, concatTokens_cons, branchContents]
      rw [ih n (fun u hu => h u (List.mem_cons_of_mem _ hu))]
    | FootnoteRef =>
      simp only [parseFrGo_fr, branchConcat_cons, concatTokens_cons, branchContents]
      rw [ih (n + 1) (fun u hu => h u (List.mem_cons_of_mem _ hu))]
    | CrossRef =>
      exact absurd rfl (h ⟨TokenType.CrossRef, tc⟩ (List.mem_cons_self _ _))

/-- C5: if the referenced set is empty, the rendered document text equals the
original document text byte for byte; and a `FootnoteRef` branch whose number
is not in the referenced set is emitted verbatim, adds nothing to the table,
and does not advance the bookmark counter (the tail is rendered with the same
counter, and no id is recorded for the branch). -/
theorem render_doc_noop :
    (∀ (s : List Char) (starting : Nat),
      (render_doc (parse_fr (lex_doc s)) [] starting).1 = s ∧
      emittedIds (parse_fr (lex_doc s)) [] starting = []) ∧
    (∀ (n : Nat) (c : List Char) (bs : List Branch) (refd : List Nat) (counter : Nat)
        (tbl : List (Nat × List Char)), n ∉ refd →
      renderDocGo (Branch.FootnoteRef n c :: bs) refd counter tbl =
        (c ++ (renderDocGo bs refd counter tbl).1,
          (renderDocGo bs refd counter tbl).2.1,
          (renderDocGo bs refd counter tbl).2.2)) := by
  constructor
  · intro s starting
    have h1 := renderDocGo_empty_refd (parse_fr (lex_doc s)) starting []
    constructor
    · rw [render_doc, h1]
      show branchConcat (parse_fr (lex_doc s)) = s
      rw [parse_fr, parseFrGo_concat (lex_doc s) 1
        (fun t ht => lexDocF_no_crossref (s.length + 1) s t ht)]
      exact lexDocF_concat _ s
    · rw [emittedIds, h1]
  · intro n c bs refd counter tbl hn
    simp [renderDocGo, hn]

/-- C5 witness: an unreferenced `FootnoteRef` branch is emitted verbatim with
no table entry and no bookmark id. -/
theorem render_doc_noop_witness :
    renderDocGo [Branch.FootnoteRef 1 ['x']] [] 5 [] =
      (['x'] ++ (renderDocGo ([] : List Branch) ([] : List Nat) 5 []).1,
        (renderDocGo ([] : List Branch) ([] : List Nat) 5 []).2.1,
        (renderDocGo ([] : List Branch) ([] : List Nat) 5 []).2.2) :=
  render_doc_noop.2 1 ['x'] [] [] 5 [] (by decide)

theorem render_fn_none_iff : ∀ (bs : List Branch) (tbl : List (Nat × List Char)),
    render_fn bs tbl = none ↔ ∃ n, Branch.CrossRef n ∈ bs ∧ lookupRef tbl n = none := by
  intro bs tbl
  induction bs with
  | nil => simp [render_fn]
  | cons b bs ih =>
    cases b with
    | Text c =>
      simp only [render_fn, Option.map_eq_none', ih, List.mem_cons]
      constructor
      · rintro ⟨n, hn, hl⟩
        exact ⟨n, Or.inr hn, hl⟩
      · rintro ⟨n, hn | hn, hl⟩
        · simp at hn
        · exact ⟨n, hn, hl⟩
    | CrossRef k =>
      cases hl : lookupRef tbl k with
      | none =>
        simp only [render_fn, hl]
        exact ⟨fun _ => ⟨k, List.mem_cons_self _ _, hl⟩, fun _ => by simp⟩
      | some rid =>
        simp only [render_fn, hl, Option.map_eq_none', ih, List.mem_cons]
        constructor
        · rintro ⟨n, hn, hnl⟩
          exact ⟨n, Or.inr hn, hnl⟩
        · rintro ⟨n, hn | hn, hnl⟩
          · rw [Branch.CrossRef.injEq] at hn
            subst hn
            rw [hl] at hnl
            simp at hnl
          · exact ⟨n, hn, hnl⟩
    | FootnoteRef m c =>
      simp only [render_fn, ih, List.mem_cons]
      constructor
      · rintro ⟨n, hn, hl⟩
        exact ⟨n, Or.inr hn, hl⟩
      · rintro ⟨n, hn | hn, hl⟩
        · simp at hn
        · exact ⟨n, hn, hl⟩

theorem lookup_insertRef : ∀ (tbl : List (Nat × List Char)) (k : Nat) (v : List Char)
    (n : Nat), lookupRef (insertRef tbl k v) n
      = if k = n then some v else lookupRef tbl n := by
  intro tbl
  induction tbl with
  | nil => intro k v n; rfl
  | cons q rest ih =>
    intro k v n
    obtain ⟨p, w⟩ := q
    by_cases hpk : p = k
    · subst hpk
      simp only [insertRef, if_pos rfl, lookupRef]
      by_cases hn : p = n
      · simp [hn]
      · simp [hn, lookupRef]
    · simp only [insertRef, if_neg hpk, lookupRef, ih]
      by_cases hpn : p = n
      · have hkn : ¬ k = n := fun e => hpk (hpn.trans e.symm)
        simp [hpn, hkn]
      · simp [hpn]

theorem renderDocGo_lookup_mono : ∀ (bs : List Branch) (refd : List Nat)
    (counter : Nat) (tbl : List (Nat × List Char)) (n : Nat),
    (lookupRef tbl n).isSome →
    (lookupRef (renderDocGo bs refd counter tbl).2.1 n).isSome := by
  intro bs
  induction bs with
  | nil => intro refd counter tbl n h; exact h
  | cons b bs ih =>
    intro refd counter tbl n h
    cases b with
    | Text c => exact ih refd counter tbl n h
    | CrossRef k => exact ih refd counter tbl n h
    | FootnoteRef m c =>
      by_cases hm : m ∈ refd
      · simp only [renderDocGo, if_pos hm]
        refine ih refd (counter + 1) _ n ?_
        rw [lookup_insertRef]
        by_cases hmn : m = n
        · simp [hmn]
        · simp [hmn, h]
      · simp only [renderDocGo, if_neg hm]
        exact ih refd counter tbl n h

theorem renderDocGo_lookup_some : ∀ (bs : List Branch) (refd : List Nat)
    (counter : Nat) (tbl : List (Nat × List Char)) (n : Nat) (c : List Char),
    Branch.FootnoteRef n c ∈ bs → n ∈ refd →
    (lookupRef (renderDocGo bs refd counter tbl).2.1 n).isSome := by
  intro bs
  induction bs with
  | nil => intro refd counter tbl n c h; simp at h
  | cons b bs ih =>
    intro refd counter tbl n c hmem hrefd
    rcases List.mem_cons.mp hmem with heq | hm2
    · subst heq
      simp only [renderDocGo, if_pos hrefd]
      refine renderDocGo_lookup_mono bs refd (counter + 1) _ n ?_
      rw [lookup_insertRef]
      simp
    · cases b with
      | Text d =>
        simp only [renderDocGo]
        exact ih refd counter tbl n c hm2 hrefd
      | CrossRef k =>
        simp only [renderDocGo]
        exact ih refd counter tbl n c hm2 hrefd
      | FootnoteRef m d =>
        by_cases hm : m ∈ refd
        · simp only [renderDocGo, if_pos hm]
          exact ih refd (counter + 1) _ n c hm2 hrefd
        · simp only [renderDocGo, if_neg hm]
          exact ih refd counter tbl n c hm2 hrefd

/-- C7: `render_fn` faults (the key lookup that panics in the source, modelled
as `none`) exactly when some `CrossRef` branch carries a number with no entry
in the reference-id table; and when every `CrossRef` number of the parsed
footnotes is the number of some `FootnoteRef` branch of the parsed document,
the lookup never faults and `render` returns normally. -/
theorem render_fn_missing_reference :
    (∀ (bs : List Branch) (tbl : List (Nat × List Char)),
      render_fn bs tbl = none ↔
        ∃ n, Branch.CrossRef n ∈ bs ∧ lookupRef tbl n = none) ∧
    (∀ (doc_tokens fn_tokens : List Token) (starting : Nat) (bs : List Branch)
        (refd : List Nat),
      parse_cr fn_tokens = some (bs, refd) →
      (∀ n, Branch.CrossRef n ∈ bs → ∃ c, Branch.FootnoteRef n c ∈ parse_fr doc_tokens) →
      (render (parse_fr doc_tokens) refd starting bs).isSome) := by
  refine ⟨render_fn_none_iff, ?_⟩
  intro doc_tokens fn_tokens starting bs refd hparse hcons
  have hrefd : ∀ n, Branch.CrossRef n ∈ bs → n ∈ refd := by
    intro n hn
    have h1 := parseCrGo_snd fn_tokens [] refd bs hparse
    rw [h1, foldl_pushNew_mem]
    exact Or.inr (crNumbers_mem.mpr hn)
  have hfn : render_fn bs (render_doc (parse_fr doc_tokens) refd starting).2 ≠ none := by
    intro hnone
    rw [render_fn_none_iff] at hnone
    obtain ⟨n, hn, hl⟩ := hnone
    obtain ⟨c, hc⟩ := hcons n hn
    have := renderDocGo_lookup_some (parse_fr doc_tokens) refd starting [] n c hc
      (hrefd n hn)
    rw [render_doc] at hl
    rw [hl] at this
    simp at this
  rw [render]
  cases hres : render_fn bs (render_doc (parse_fr doc_tokens) refd starting).2 with
  | none => exact absurd hres hfn
  | some f => simp

/-- C7 witness: a document with one footnote reference and a footnote
cross-referencing footnote 1 renders without faulting. -/
theorem render_fn_missing_reference_witness :
    (render (parse_fr [⟨TokenType.FootnoteRef, []⟩]) [1] 1 [Branch.CrossRef 1]).isSome := by
  apply render_fn_missing_reference.2 [⟨TokenType.FootnoteRef, []⟩]
    [⟨TokenType.CrossRef, ['1']⟩] 1 [Branch.CrossRef 1] [1] (by decide)
  intro n hn
  simp only [List.mem_singleton, Branch.CrossRef.injEq] at hn
  subst hn
  exact ⟨[], by decide⟩

theorem digitsVal_aux_lt : ∀ (ds : List Char) (a : Nat), (∀ c ∈ ds, isDigitCh c) →
    ds.foldl (fun a c => a * 10 + (c.toNat - 48)) a < (a + 1) * 10 ^ ds.length := by
  intro ds
  induction ds with
  | nil => intro a h; simp
  | cons c rest ih =>
    intro a h
    have hc : isDigitCh c := h c (List.mem_cons_self _ _)
    have hd : c.toNat - 48 ≤ 9 := by
      simp only [isDigitCh, Bool.and_eq_true, decide_eq_true_eq] at hc
      omega
    simp only [List.foldl_cons, List.length_cons]
    calc rest.foldl (fun a c => a * 10 + (c.toNat - 48)) (a * 10 + (c.toNat - 48))
        < (a * 10 + (c.toNat - 48) + 1) * 10 ^ rest.length :=
          ih (a * 10 + (c.toNat - 48)) (fun x hx => h x (List.mem_cons_of_mem _ hx))
      _ ≤ ((a + 1) * 10) * 10 ^ rest.length := Nat.mul_le_mul_right _ (by omega)
      _ = (a + 1) * 10 ^ (rest.length + 1) := by ring

theorem digitsVal_lt {ds : List Char} (h : ∀ c ∈ ds, isDigitCh c) :
    digitsVal ds < 10 ^ ds.length := by
  simpa [digitsVal] using digitsVal_aux_lt ds 0 h

theorem parseU32_digits {ds : List Char} (h1 : 1 ≤ ds.length) (h2 : ds.length ≤ 9)
    (h3 : ∀ c ∈ ds, isDigitCh c) : parseU32 ds = some (digitsVal ds) := by
  have hlt : digitsVal ds < 4294967296 := by
    calc digitsVal ds < 10 ^ ds.length := digitsVal_lt h3
      _ ≤ 10 ^ 9 := Nat.pow_le_pow_right (by norm_num) h2
      _ < 4294967296 := by norm_num
  cases ds with
  | nil => simp at h1
  | cons c rest =>
    have hc : isDigitCh c := h3 c (List.mem_cons_self _ _)
    have hcp : c ≠ '+' := by
      intro e
      rw [e] at hc
      simp [isDigitCh] at hc
    have hall : (c :: rest).all isDigitCh = true :=
      List.all_eq_true.mpr (fun x hx => h3 x hx)
    unfold parseU32
    split
    · rename_i r heq
      injection heq with hch
      exact absurd hch hcp
    · simp [h1, hall, hlt]

theorem matchBmk_eq_some {s ds : List Char} (h : matchBmk s = some ds) :
    1 ≤ ds.length ∧ ds.length ≤ 9 ∧ (∀ c ∈ ds, isDigitCh c) ∧
      ∃ r, s = bmkLit ++ (ds ++ r) := by
  simp only [matchBmk] at h
  split at h
  · split at h
    · rename_i hpre hlen
      injection h with h
      subst h
      refine ⟨hlen, List.length_take_le 9 _, fun c hc =>
        List.mem_takeWhile_imp (List.mem_of_mem_take hc), ?_⟩
      have e1 := isPrefixOf_decomp hpre
      have hds : ((s.drop bmkLit.length).takeWhile isDigitCh).take 9 <+: s.drop bmkLit.length :=
        ( List.take_prefix 9 _).trans ( List.takeWhile_prefix isDigitCh)
      have e2 := prefix_decomp hds
      exact ⟨_, by conv_lhs => rw [e1, e2]⟩
    · exact absurd h (by simp)
  · exact absurd h (by simp)

theorem findBmk_eq_some : ∀ (s : List Char) {i : Nat} {ds : List Char},
    findBmk s = some (i, ds) → matchBmk (s.drop i) = some ds := by
  intro s
  induction s with
  | nil => intro i ds h; simp [findBmk] at h
  | cons c cs ih =>
    intro i ds h
    rw [findBmk] at h
    cases hm : matchBmk (c :: cs) with
    | some ds' =>
      rw [hm] at h
      simp only [Option.some.injEq, Prod.mk.injEq] at h
      obtain ⟨h1, h2⟩ := h
      subst h1; subst h2
      simpa using hm
    | none =>
      rw [hm] at h
      cases hf : findBmk cs with
      | none => rw [hf] at h; simp at h
      | some p =>
        obtain ⟨i', ds'⟩ := p
        rw [hf] at h
        simp only [Option.map_some', Option.some.injEq, Prod.mk.injEq] at h
        obtain ⟨h1, h2⟩ := h
        subst h1; subst h2
        simpa using ih hf

theorem bmkCapsF_digits : ∀ (fuel : Nat) (s ds : List Char),
    ds ∈ bmkCapsF fuel s →
    1 ≤ ds.length ∧ ds.length ≤ 9 ∧ ∀ c ∈ ds, isDigitCh c := by
  intro fuel
  induction fuel with
  | zero => intro s ds h; simp [bmkCapsF] at h
  | succ n ih =>
    intro s ds h
    rw [bmkCapsF] at h
    cases hf : findBmk s with
    | none => rw [hf] at h; simp at h
    | some p =>
      obtain ⟨i, d⟩ := p
      rw [hf] at h
      rcases List.mem_cons.mp h with rfl | h2
      · obtain ⟨a, b, cdig, -⟩ := matchBmk_eq_some (findBmk_eq_some s hf)
        exact ⟨a, b, cdig⟩
      · exact ih _ ds h2

theorem mapM_parseU32_eq : ∀ (l : List (List Char)),
    (∀ ds ∈ l, parseU32 ds = some (digitsVal ds)) →
    l.mapM parseU32 = some (l.map digitsVal) := by
  intro l
  induction l with
  | nil => intro h; rfl
  | cons a l ih =>
    intro h
    rw [List.mapM_cons, h a (List.mem_cons_self _ _),
      ih (fun x hx => h x (List.mem_cons_of_mem _ hx))]
    rfl

theorem starting_bookmark_eq : ∀ s : List Char,
    starting_bookmark s = some (startVal s) := by
  intro s
  have hcaps : ∀ ds ∈ bmkCaps s, parseU32 ds = some (digitsVal ds) := by
    intro ds hds
    obtain ⟨h1, h2, h3⟩ := bmkCapsF_digits (s.length + 1) s ds hds
    exact parseU32_digits h1 h2 h3
  simp only [starting_bookmark, mapM_parseU32_eq _ hcaps, startVal]
  cases hm : ((bmkCaps s).map digitsVal).max? with
  | none => simp [hm]
  | some m => simp [hm]

@[simp] theorem countRefdFR_nil (refd : List Nat) : countRefdFR [] refd = 0 := rfl

@[simp] theorem countRefdFR_cons_text (c : List Char) (bs : List Branch)
    (refd : List Nat) :
    countRefdFR (Branch.Text c :: bs) refd = countRefdFR bs refd := by
  simp [countRefdFR, List.countP_cons]

@[simp] theorem countRefdFR_cons_cr (n : Nat) (bs : List Branch) (refd : List Nat) :
    countRefdFR (Branch.CrossRef n :: bs) refd = countRefdFR bs refd := by
  simp [countRefdFR, List.countP_cons]

@[simp] theorem countRefdFR_cons_fr (n : Nat) (c : List Char) (bs : List Branch)
    (refd : List Nat) :
    countRefdFR (Branch.FootnoteRef n c :: bs) refd
      = countRefdFR bs refd + (if n ∈ refd then 1 else 0) := by
  simp [countRefdFR, List.countP_cons]

theorem renderDocGo_ids : ∀ (bs : List Branch) (refd : List Nat) (counter : Nat)
    (tbl : List (Nat × List Char)),
    (renderDocGo bs refd counter tbl).2.2 = List.range' counter (countRefdFR bs refd) := by
  intro bs
  induction bs with
  | nil => intro refd counter tbl; simp [renderDocGo]
  | cons b bs ih =>
    intro refd counter tbl
    cases b with
    | Text c => simp [renderDocGo, ih]
    | CrossRef k => simp [renderDocGo, ih]
    | FootnoteRef n c =>
      by_cases hn : n ∈ refd
      · simp only [renderDocGo, if_pos hn, countRefdFR_cons_fr]
        rw [ih]
        simp [hn, List.range'_succ]
      · simp only [renderDocGo, if_neg hn, countRefdFR_cons_fr]
        simp [hn, ih]

theorem foldl_max_le : ∀ (xs : List Nat) (x : Nat),
    x ≤ xs.foldl max x ∧ ∀ b ∈ xs, b ≤ xs.foldl max x := by
  intro xs
  induction xs with
  | nil => intro x; exact ⟨Nat.le_refl x, by simp⟩
  | cons y ys ih =>
    intro x
    refine ⟨?_, ?_⟩
    · exact le_trans (Nat.le_max_left x y) (ih (max x y)).1
    · intro b hb
      rcases List.mem_cons.mp hb with rfl | hb
      · exact le_trans (Nat.le_max_right x b) (ih (max x b)).1
      · exact (ih (max x y)).2 b hb

theorem le_max?_of_mem : ∀ {l : List Nat} {b m : Nat}, b ∈ l → l.max? = some m →
    b ≤ m := by
  intro l b m hb hm
  cases l with
  | nil => simp at hb
  | cons x xs =>
    rw [List.max?_cons'] at hm
    injection hm with hm
    subst hm
    rcases List.mem_cons.mp hb with rfl | hb
    · exact (foldl_max_le xs b).1
    · exact (foldl_max_le xs x).2 b hb

/-- C4: `starting_bookmark` never errors and returns one more than the
largest bookmark id captured in the document text (1 when there is none); the
bookmark ids `render_doc` emits are the consecutive integers starting at that
value, one per referenced footnote reference, with no gaps and no repeats;
hence no emitted id equals any captured id. -/
theorem bookmark_ids_fresh :
    ∀ (s : List Char) (tree : List Branch) (refd : List Nat),
      starting_bookmark s = some (startVal s) ∧
      (bmkCaps s = [] → startVal s = 1) ∧
      (∀ m, ((bmkCaps s).map digitsVal).max? = some m → startVal s = m + 1) ∧
      emittedIds tree refd (startVal s) =
        List.range' (startVal s) (countRefdFR tree refd) ∧
      (∀ bid ∈ emittedIds tree refd (startVal s),
        ∀ b ∈ (bmkCaps s).map digitsVal, bid ≠ b) := by
  intro s tree refd
  refine ⟨starting_bookmark_eq s, ?_, ?_, renderDocGo_ids tree refd (startVal s) [], ?_⟩
  · intro h; simp [startVal, h]
  · intro m hm; simp [startVal, hm]
  · intro bid hbid b hb
    simp only [emittedIds] at hbid
    rw [renderDocGo_ids, List.mem_range'] at hbid
    obtain ⟨j, hj, rfl⟩ := hbid
    have hmax : ∃ m, ((bmkCaps s).map digitsVal).max? = some m := by
      cases hq : ((bmkCaps s).map digitsVal).max? with
      | none =>
        cases hl : (bmkCaps s).map digitsVal with
        | nil => rw [hl] at hb; simp at hb
        | cons x xs => rw [hl, List.max?_cons'] at hq; simp at hq
      | some m => exact ⟨m, rfl⟩
    obtain ⟨m, hm⟩ := hmax
    have hb_le : b ≤ m := le_max?_of_mem hb hm
    have hv : startVal s = m + 1 := by simp [startVal, hm]
    rw [hv]
    omega

/-- C4 witness: a document already holding bookmark id 5 yields starting
value 6; one referenced footnote reference consumes exactly id 6, which
differs from the pre-existing id 5. -/
theorem bookmark_ids_fresh_witness :
    starting_bookmark (("<w:bookmarkStart w:id=\"5\"").data) =
        some (startVal (("<w:bookmarkStart w:id=\"5\"").data)) ∧
      startVal (("<w:bookmarkStart w:id=\"5\"").data) = 6 ∧
      emittedIds [Branch.FootnoteRef 1 []] [1]
          (startVal (("<w:bookmarkStart w:id=\"5\"").data)) = [6] ∧
      (6 : Nat) ≠ 5 := by
  have h := bookmark_ids_fresh (("<w:bookmarkStart w:id=\"5\"").data)
    [Branch.FootnoteRef 1 []] [1]
  refine ⟨h.1, by decide, by decide, ?_⟩
  exact h.2.2.2.2 6 (by decide) 5 (by decide)

theorem lexFnF_crossref_digits : ∀ (fuel : Nat) (s : List Char) (t : Token),
    t ∈ lexFnF fuel s → t.token_type = TokenType.CrossRef →
    1 ≤ t.contents.length ∧ t.contents.length ≤ 9 ∧ ∀ c ∈ t.contents, isDigitCh c := by
  intro fuel
  induction fuel with
  | zero =>
    intro s t ht htt
    simp only [lexFnF, List.mem_singleton] at ht
    subst ht
    simp at htt
  | succ n ih =>
    intro s t ht htt
    rw [lexFnF] at ht
    cases hf : findFn s with
    | none =>
      rw [hf] at ht
      simp only [List.mem_singleton] at ht
      subst ht
      simp at htt
    | some p =>
      obtain ⟨i, m⟩ := p
      rw [hf] at ht
      cases m with
      | single ds =>
        simp only [List.mem_cons] at ht
        rcases ht with rfl | rfl | ht
        · simp at htt
        · obtain ⟨a, b, cdig, -⟩ := matchFnSingle_eq_some (matchFn_eq_single (findFn_eq_some s hf))
          exact ⟨a, b, cdig⟩
        · exact ih _ t ht htt
      | range d1 c d2 =>
        simp only [List.mem_cons] at ht
        rcases ht with rfl | rfl | rfl | rfl | ht
        · simp at htt
        · obtain ⟨a, b, cdig, -⟩ := matchFnRange_eq_some (matchFn_eq_range (findFn_eq_some s hf))
          exact ⟨a, b, cdig⟩
        · simp at htt
        · obtain ⟨-, -, -, a, b, cdig, -⟩ :=
            matchFnRange_eq_some (matchFn_eq_range (findFn_eq_some s hf))
          exact ⟨a, b, cdig⟩
        · exact ih _ t ht htt

theorem parseCrGo_isSome : ∀ (ts : List Token) (refd : List Nat),
    (∀ t ∈ ts, t.token_type = TokenType.CrossRef → (parseU32 t.contents).isSome) →
    (parseCrGo refd ts).isSome := by
  intro ts
  induction ts with
  | nil => intro refd h; simp [parseCrGo]
  | cons t ts ih =>
    intro refd h
    obtain ⟨tt, tc⟩ := t
    cases tt with
    | Other =>
      simp only [parseCrGo, Option.isSome_map']
      exact ih refd (fun u hu => h u (List.mem_cons_of_mem _ hu))
    | CrossRef =>
      have hp : (parseU32 tc).isSome := h ⟨TokenType.CrossRef, tc⟩ (List.mem_cons_self _ _) rfl
      obtain ⟨v, hv⟩ := Option.isSome_iff_exists.mp hp
      simp only [parseCrGo, hv, Option.isSome_map']
      exact ih (pushNew refd v) (fun u hu => h u (List.mem_cons_of_mem _ hu))
    | FootnoteRef =>
      simp only [parseCrGo]
      exact ih refd (fun u hu => h u (List.mem_cons_of_mem _ hu))

/-- C10: every `CrossRef` token produced by `lex_fn` carries 1 to 9 decimal
digits, every such string parses as `u32`, and therefore `parse_cr` applied
to the output of `lex_fn` never takes its error branch. -/
theorem crossref_parse_never_fails :
    ∀ s : List Char,
      (∀ t ∈ lex_fn s, t.token_type = TokenType.CrossRef →
        1 ≤ t.contents.length ∧ t.contents.length ≤ 9 ∧ ∀ c ∈ t.contents, isDigitCh c) ∧
      (parse_cr (lex_fn s)).isSome := by
  intro s
  refine ⟨fun t ht htt => lexFnF_crossref_digits (s.length + 1) s t ht htt, ?_⟩
  refine parseCrGo_isSome _ [] (fun t ht htt => ?_)
  obtain ⟨h1, h2, h3⟩ := lexFnF_crossref_digits (s.length + 1) s t ht htt
  rw [parseU32_digits h1 h2 h3]
  rfl

/-- C10 witness: on the input `>note 12` the cross-reference token carries
the digits 12 and the footnotes parser succeeds. -/
theorem crossref_parse_never_fails_witness :
    (1 ≤ ((⟨TokenType.CrossRef, ['1', '2']⟩ : Token)).contents.length ∧
      ((⟨TokenType.CrossRef, ['1', '2']⟩ : Token)).contents.length ≤ 9 ∧
      ∀ c ∈ ((⟨TokenType.CrossRef, ['1', '2']⟩ : Token)).contents, isDigitCh c) ∧
    (parse_cr (lex_fn ((">note 12").data))).isSome :=
  ⟨(crossref_parse_never_fails ((">note 12").data)).1 ⟨TokenType.CrossRef, ['1', '2']⟩
      (by decide) rfl,
    (crossref_parse_never_fails ((">note 12").data)).2⟩

/-- C9: when the sub-lexer's pattern never matches (its leftmost-match search
returns nothing), `lex_doc` and `lex_fn` return exactly one `Other` token
holding the whole input; and on empty document and footnotes inputs the full
pipeline succeeds with two empty outputs. -/
theorem zero_match_and_empty_input :
    (∀ s : List Char, findDoc s = none → lex_doc s = [⟨TokenType.Other, s⟩]) ∧
    (∀ s : List Char, findFn s = none → lex_fn s = [⟨TokenType.Other, s⟩]) ∧
    process [] [] = some ([], []) := by
  refine ⟨?_, ?_, ?_⟩
  · intro s h
    rw [lex_doc, lexDocF, h]
  · intro s h
    rw [lex_fn, lexFnF, h]
  · rfl

/-- C9 witness: on the one-character input `a` neither pattern matches and
each sub-lexer returns a single `Other` token holding the input. -/
theorem zero_match_and_empty_input_witness :
    lex_doc ['a'] = [⟨TokenType.Other, ['a']⟩] ∧
    lex_fn ['a'] = [⟨TokenType.Other, ['a']⟩] :=
  ⟨zero_match_and_empty_input.1 ['a'] (by decide),
    zero_match_and_empty_input.2.1 ['a'] (by decide)⟩

end Autocref
